import Mathlib

/-!
Verification of the submission reconciliation engine of `kattis2canvas`
(files `kattis2canvas.py` and `main.py`; both files contain the same
engine, so one embedding covers both).

The engine is embedded shallowly:

* Python `datetime` values are modelled at second granularity by `DT`
  (a proleptic-Gregorian ordinal day, as produced by `date.toordinal`,
  plus the seconds elapsed within that day).  Aware datetimes compare by
  instant, which for in-range values is exactly the order of `DT.toSec`.
* Python dicts are modelled by insertion-ordered association lists
  (`alGet?`, `alSet`, `alMem`): updating an existing key keeps its
  position, a new key is appended, exactly like `dict` insertion order.
* A raised exception is modelled by `Option`/`none`.
* Python `float` is modelled by rationals together with `roundDouble`,
  the IEEE-754 binary64 round-to-nearest, ties-to-even rounding of a
  rational (exponent range unbounded: every value reached by the code
  is a normal double, far from overflow and underflow).
-/

/-- A timezone-aware `datetime` at second granularity: `day` is the
proleptic Gregorian ordinal (`datetime.date.toordinal`, day 1 being
0001-01-01) and `sod` the seconds since midnight.  The engine never
observes sub-second structure: `now.replace(hour, minute, second)`
keeps `now`'s microseconds, so both sides of every comparison carry the
same microsecond field and the order of instants coincides with the
order of `DT.toSec`. -/
structure DT where
  day : ℤ
  sod : ℕ
  deriving DecidableEq, Repr

/-- The instant of a `DT`, in seconds. -/
def DT.toSec (d : DT) : ℤ := d.day * 86400 + d.sod

/-- `datetime.datetime.fromordinal(1).replace(tzinfo=utc)`: the sentinel
used to initialize `last_comment` before folding over the comments of a
canvas submission. -/
def dtSentinel : DT := ⟨1, 0⟩

/-- Gregorian leap-year test, as in Python's `calendar`/`datetime`. -/
def isLeap (y : ℕ) : Bool := (y % 4 == 0 && y % 100 != 0) || y % 400 == 0

/-- Days in the months before month `m` (1-based) of a year. -/
def daysBeforeMonth (y m : ℕ) : ℕ :=
  (([31, if isLeap y then 29 else 28, 31, 30, 31, 30, 31, 31, 30, 31, 30, 31]).take (m - 1)).sum

/-- `datetime.date(y, m, d).toordinal()`: proleptic Gregorian ordinal,
with 0001-01-01 being day 1. -/
def toordinal (y m d : ℕ) : ℤ :=
  (365 * (y - 1) + (y - 1) / 4 - (y - 1) / 100 + (y - 1) / 400 + daysBeforeMonth y m + d : ℕ)

example : toordinal 1 1 1 = 1 := by decide
example : toordinal 1970 1 1 = 719163 := by decide
example : toordinal 2024 5 10 = 739016 := by decide

/-! ### Association lists: Python dicts -/

/-- Lookup in an insertion-ordered association list (`d[k]` / `d.get(k)`). -/
def alGet? {α β : Type} [DecidableEq α] : List (α × β) → α → Option β
  | [], _ => none
  | (k', v) :: rest, k => if k' = k then some v else alGet? rest k

/-- `d[k] = v`: update in place if the key exists (keeping its position,
as Python dicts do), otherwise append. -/
def alSet {α β : Type} [DecidableEq α] : List (α × β) → α → β → List (α × β)
  | [], k, v => [(k, v)]
  | (k', v') :: rest, k, v =>
    if k' = k then (k, v) :: rest else (k', v') :: alSet rest k v

/-- `k in d`. -/
def alMem {α β : Type} [DecidableEq α] (m : List (α × β)) (k : α) : Bool :=
  (alGet? m k).isSome

theorem alGet?_alSet_self {α β : Type} [DecidableEq α]
    (m : List (α × β)) (k : α) (v : β) : alGet? (alSet m k v) k = some v := by
  induction m with
  | nil => simp [alSet, alGet?]
  | cons p rest ih =>
    obtain ⟨k', v'⟩ := p
    by_cases h : k' = k <;> simp [alSet, alGet?, h, ih]

theorem alGet?_alSet_ne {α β : Type} [DecidableEq α]
    (m : List (α × β)) (k k' : α) (v : β) (hne : k ≠ k') :
    alGet? (alSet m k v) k' = alGet? m k' := by
  induction m with
  | nil => simp [alSet, alGet?, hne]
  | cons p rest ih =>
    obtain ⟨k₀, v₀⟩ := p
    by_cases h : k₀ = k
    · subst h
      simp [alSet, alGet?, hne]
    · simp [alSet, alGet?, h, ih]

/-! ### `extract_last` (kattis2canvas.py 72-76, main.py 59-63)

```python
def extract_last(pathish: str) -> str:
    last_slash = pathish.rindex("/")
    if last_slash:
        pathish = pathish[last_slash + 1:]
    return pathish
```

`str.rindex` raises `ValueError` when the character does not occur;
the raise is modelled by `none`. -/

/-- Index of the last occurrence of `c` in the list, offset by `n`
(`str.rindex`, with `none` for the raised `ValueError`). -/
def lastIdxFrom (c : Char) : List Char → ℕ → Option ℕ
  | [], _ => none
  | x :: xs, n =>
    match lastIdxFrom c xs (n + 1) with
    | some j => some j
    | none => if x = c then some n else none

/-- `extract_last`: note the truthiness test `if last_slash:`—an index
of `0` is falsy, so a string whose last slash is its first character is
returned unchanged. -/
def extract_last (pathish : String) : Option String :=
  match lastIdxFrom '/' pathish.data 0 with
  | none => none
  | some i => if i = 0 then some pathish else some (String.mk (pathish.data.drop (i + 1)))

example : extract_last "/users/abc" = some "abc" := by decide
example : extract_last "/a" = some "/a" := by decide
example : extract_last "abc" = none := by decide

theorem lastIdxFrom_eq_none_iff (c : Char) (cs : List Char) (n : ℕ) :
    lastIdxFrom c cs n = none ↔ c ∉ cs := by
  induction cs generalizing n with
  | nil => simp [lastIdxFrom]
  | cons x xs ih =>
    rw [lastIdxFrom]
    cases h : lastIdxFrom c xs (n + 1) with
    | some j =>
      have hc : c ∈ xs := by
        by_contra hcn
        rw [(ih (n + 1)).mpr hcn] at h
        exact Option.noConfusion h
      simp [List.mem_cons, hc]
    | none =>
      have hxs : c ∉ xs := (ih (n + 1)).mp h
      by_cases hx : x = c <;> simp_all [List.mem_cons, eq_comm]

theorem lastIdxFrom_append_last (pre post : List Char) (hpost : '/' ∉ post) :
    ∀ n : ℕ, lastIdxFrom '/' (pre ++ '/' :: post) n = some (n + pre.length) := by
  induction pre with
  | nil =>
    intro n
    rw [List.nil_append, lastIdxFrom,
      (lastIdxFrom_eq_none_iff '/' post (n + 1)).mpr hpost]
    simp
  | cons x xs ih =>
    intro n
    rw [List.cons_append, lastIdxFrom, ih (n + 1)]
    simp
    omega

/-! ### `find_kattis_link` (kattis2canvas.py 325-330, main.py 298-303)

```python
def find_kattis_link(profile):
    kattis_url = None
    for link in profile["links"]:
        if "kattis" in link["title"].lower():
            kattis_url = link["url"]
    return kattis_url
```
-/

/-- One labeled external link of a canvas profile. -/
structure Link where
  title : String
  url : String
  deriving DecidableEq, Repr

/-- `pat in s`: substring containment on character lists. -/
def listContainsSub (s pat : List Char) : Bool :=
  s.tails.any (fun suf => pat.isPrefixOf suf)

/-- `"kattis" in title.lower()` (ASCII lowering; the marker is ASCII). -/
def titleMatchesKattis (t : String) : Bool :=
  listContainsSub (t.data.map Char.toLower) "kattis".data

/-- The loop of `find_kattis_link`: every matching link overwrites
`kattis_url`, so the last match wins; no match leaves `none`. -/
def find_kattis_link (links : List Link) : Option String :=
  links.foldl (fun acc l => if titleMatchesKattis l.title then some l.url else acc) none

example : find_kattis_link
    [⟨"My Kattis page", "/users/first"⟩, ⟨"blog", "/b"⟩, ⟨"open.KATTIS.com", "/users/second"⟩]
    = some "/users/second" := by decide
example : find_kattis_link [⟨"blog", "/b"⟩] = none := by decide

theorem find_kattis_link_foldl_characterization (links : List Link) :
    ∀ acc : Option String,
      links.foldl (fun acc l => if titleMatchesKattis l.title then some l.url else acc) acc =
        match links.reverse.find? (fun l => titleMatchesKattis l.title) with
        | some l => some l.url
        | none => acc := by
  induction links with
  | nil => intro acc; simp
  | cons x xs ih =>
    intro acc
    rw [List.foldl_cons, ih, List.reverse_cons, List.find?_append]
    cases hfind : xs.reverse.find? (fun l => titleMatchesKattis l.title) with
    | some l => simp [hfind, Option.orElse]
    | none =>
      by_cases hx : titleMatchesKattis x.title = true <;>
        simp [hfind, Option.orElse, List.find?, hx]

/-! ### The `float` model -/

/-- `⌊log₂ n⌋` for `n ≥ 1`, by fuel recursion (so that it reduces in the
kernel). -/
def log2fuel : ℕ → ℕ → ℕ
  | 0, _ => 0
  | f + 1, n => if 2 ≤ n then log2fuel f (n / 2) + 1 else 0

/-- `⌊log₂ n⌋` (0 for `n = 0`). -/
def log2nat (n : ℕ) : ℕ := log2fuel n n

/-- `⌈log₂ m⌉`: least `e` with `m ≤ 2 ^ e`, for `m ≥ 1`. -/
def clog2nat (m : ℕ) : ℕ := if m ≤ 1 then 0 else log2nat (m - 1) + 1

example : log2nat 1 = 0 := by decide
example : log2nat 33 = 5 := by decide
example : clog2nat 3 = 2 := by decide

/-- `⌊log₂ (a / b)⌋` for positive naturals `a`, `b`. -/
def ratLog2FloorN (a b : ℕ) : ℤ :=
  if b ≤ a then (log2nat (a / b) : ℤ) else -(clog2nat ((b + a - 1) / a) : ℤ)

example : ratLog2FloorN 1 3 = -2 := by decide
example : ratLog2FloorN 100 1 = 6 := by decide

/-- Round the fraction `a / b` to the nearest natural, ties to even. -/
def roundHalfEvenN (a b : ℕ) : ℕ :=
  let f := a / b
  let r2 := 2 * (a % b)
  if r2 < b then f else if b < r2 then f + 1 else if f % 2 = 0 then f else f + 1

/-- The value of the Python `float` nearest to `a / b`, as an exact
rational: round to 53 significant bits, to nearest, ties to even
(exponents unbounded, which agrees with IEEE-754 binary64 away from
overflow and underflow; every value the engine computes is a normal
double).  All arithmetic is over `ℕ`/`ℤ` and the result is packaged
with `mkRat`, so the definition evaluates inside the kernel. -/
def roundDoubleN (a b : ℕ) : ℚ :=
  if a = 0 ∨ b = 0 then 0
  else
    let e := ratLog2FloorN a b
    let s : ℤ := 52 - e
    if 0 ≤ s then mkRat (roundHalfEvenN (a * 2 ^ s.toNat) b) (2 ^ s.toNat)
    else ((roundHalfEvenN a (b * 2 ^ (-s).toNat) * 2 ^ (-s).toNat : ℕ) : ℚ)

/-- `float(d) * 100` for a nonnegative double `d`: `100` is exactly
representable, and IEEE multiplication rounds the exact product once. -/
def doubleMul100 (d : ℚ) : ℚ := roundDoubleN (d.num.toNat * 100) d.den

example : roundDoubleN 1 1 = 1 := by decide
example : roundDoubleN 3 5 = mkRat 5404319552844595 (2 ^ 53) := by decide
example : roundDoubleN (2 ^ 53 + 1) 1 = ((2 ^ 53 : ℕ) : ℚ) := by decide

/-! ### Score parsing (kattis2canvas.py 487, main.py 420)

```python
score = 0.0 if props["Test cases"] == DASH else float(Fraction(props["Test cases"])) * 100
```

where `DASH` stands for the literal three-character string dash, slash,
dash (spelling it out here would end this comment block early).
`float(Fraction(s))` divides the numerator by the denominator with
correct rounding (one `roundDoubleN`); the float is then multiplied by
the exactly-representable `100` with one more IEEE rounding. -/

/-- Split a character list on `'/'`. -/
def splitOnSlashAux : List Char → List Char → List (List Char)
  | [], acc => [acc.reverse]
  | c :: rest, acc =>
    if c = '/' then acc.reverse :: splitOnSlashAux rest [] else splitOnSlashAux rest (c :: acc)

/-- All `'/'`-separated fields of a string. -/
def splitOnSlash (cs : List Char) : List (List Char) := splitOnSlashAux cs []

/-- Parse a nonempty all-digit character list as a natural number. -/
def parseNatDigits? (cs : List Char) : Option ℕ :=
  if cs ≠ [] ∧ cs.all Char.isDigit then
    some (cs.foldl (fun n c => 10 * n + (c.toNat - 48)) 0)
  else none

/-- `Fraction(s)` for the scraped `"p/q"` test-case fields (digits-only
numerator and denominator, the shapes the judge table produces); the
raw numerator/denominator pair is returned, and `none` models the
exception raised on any other input, including a zero denominator. -/
def parseFrac? (s : String) : Option (ℕ × ℕ) :=
  match splitOnSlash s.data with
  | [a, b] =>
    match parseNatDigits? a, parseNatDigits? b with
    | some p, some q => if q = 0 then none else some (p, q)
    | _, _ => none
  | _ => none

example : parseFrac? "3/5" = some (3, 5) := by decide
example : parseFrac? "-/-" = none := by decide

/-- The score computed for a row's `"Test cases"` field: `0.0` for the
exact dash-slash-dash placeholder, otherwise
`float(Fraction(p, q)) * 100`. -/
def scoreOfTestCases (s : String) : Option ℚ :=
  if s = "-/-" then some 0
  else (parseFrac? s).map (fun pq => doubleMul100 (roundDoubleN pq.1 pq.2))

example : scoreOfTestCases "-/-" = some 0 := by decide
example : scoreOfTestCases "3/5" = some 60 := by decide

/-! ### Short-date resolution (kattis2canvas.py 476-485, main.py 409-418)

```python
date = props["Date"]
if "-" in date:
    date = datetime.datetime.strptime(date, "%Y-%m-%d %H:%M:%S").replace(tzinfo=now.tzinfo)
else:
    hms = datetime.datetime.strptime(date, "%H:%M:%S")
    date = now.replace(hour=hms.hour, minute=hms.minute, second=hms.second)
    if date > now:
        date -= datetime.timedelta(days=1)
```
-/

/-- Resolution of a short-format `"HH:MM:SS"` timestamp against the
reference instant `now`: substitute the time of day onto `now`'s date,
then subtract one day when the naive result lies strictly after `now`
(`timedelta(days=1)` on an aware fixed-offset datetime shifts the wall
clock by exactly one day). -/
def resolveShortDate (dnow : DT) (h m s : ℕ) : DT :=
  if dnow.toSec < (DT.mk dnow.day (h * 3600 + m * 60 + s)).toSec then
    ⟨dnow.day - 1, h * 3600 + m * 60 + s⟩
  else ⟨dnow.day, h * 3600 + m * 60 + s⟩

example : resolveShortDate ⟨toordinal 2024 5 10, 36000⟩ 9 30 0
    = ⟨toordinal 2024 5 10, 34200⟩ := by decide
example : resolveShortDate ⟨toordinal 2024 5 10, 600⟩ 23 50 0
    = ⟨toordinal 2024 5 9, 85800⟩ := by decide

/-! ### Best-submission selection (kattis2canvas.py 459-497, main.py 392-430)

```python
best_submissions = collections.defaultdict(dict)
for ... each scraped row ...:
    submission = Submission(user=..., problem=..., date=..., score=..., url=...)
    if submission.problem not in best_submissions[submission.user]:
        best_submissions[submission.user] = {submission.problem: submission}
    else:
        current_best = best_submissions[submission.user][submission.problem]
        if current_best.score < submission.score or (
                current_best.score == submission.score and current_best.date < submission.date):
            best_submissions[submission.user][submission.problem] = submission
return best_submissions
```

Note the first branch: when the row's problem is not yet a key of the
user's inner dict, the user's WHOLE inner dict is replaced by a
singleton, not extended. -/

/-- A normalized submission row (`Submission` namedtuple). -/
structure Submission where
  user : String
  problem : String
  score : ℚ
  url : String
  date : DT
  deriving DecidableEq, Repr

/-- The outer dict: kattis user → (problem → best submission so far). -/
def BestMap : Type := List (String × List (String × Submission))

instance : DecidableEq BestMap := by
  unfold BestMap
  infer_instance

/-- Processing of one scraped row by `get_best_submissions`.  The
`defaultdict(dict)` access `best_submissions[submission.user]` yields
`{}` for an unseen user. -/
def bestStep (m : BestMap) (sub : Submission) : BestMap :=
  let inner := (alGet? m sub.user).getD []
  match alGet? inner sub.problem with
  | none => alSet m sub.user [(sub.problem, sub)]
  | some current_best =>
    if current_best.score < sub.score ∨
        (current_best.score = sub.score ∧ current_best.date.toSec < sub.date.toSec) then
      alSet m sub.user (alSet inner sub.problem sub)
    else m

/-- `get_best_submissions`, with scraping abstracted away: the already
normalized rows are folded in page order. -/
def get_best_submissions (rows : List Submission) : BestMap :=
  rows.foldl bestStep []

/-- Lookup of the retained best submission for a (user, problem) pair. -/
def lookupBest (m : BestMap) (u p : String) : Option Submission :=
  (alGet? m u).bind (fun inner => alGet? inner p)

example :
    lookupBest (get_best_submissions
      [⟨"u", "A", 50, "/s/1", ⟨739016, 100⟩⟩, ⟨"u", "A", 100, "/s/2", ⟨739016, 200⟩⟩])
      "u" "A" = some ⟨"u", "A", 100, "/s/2", ⟨739016, 200⟩⟩ := by decide

/-! ### Collapsing prior annotations (kattis2canvas.py 432-438, main.py 367-373)

```python
last_comment = datetime.datetime.fromordinal(1).replace(tzinfo=datetime.timezone.utc)
if canvas_submission.submission_comments:
    for comment in canvas_submission.submission_comments:
        created_at = extract_canvas_date(comment['created_at'])
        if created_at > last_comment:
            last_comment = created_at
canvas_submission.last_comment = last_comment
```
-/

/-- One step of the `last_comment` fold: keep the later instant. -/
def maxStep (acc c : DT) : DT := if acc.toSec < c.toSec then c else acc

/-- The collapsed `last_comment` of a canvas submission: the maximum of
its comment timestamps, starting from the year-1 sentinel (an empty or
missing comment list leaves the sentinel). -/
def lastComment (comments : List DT) : DT := comments.foldl maxStep dtSentinel

/-- The planner's per-(user, problem) decision
(`kattis_submission.date > submissions_by_user[user].last_comment`):
`true` means an update (a write when not in dryrun), `false` means the
entry is skipped as up to date. -/
def shouldUpdate (bestDate : DT) (comments : List DT) : Bool :=
  decide ((lastComment comments).toSec < bestDate.toSec)

example : shouldUpdate ⟨739016, 50⟩ [⟨739016, 50⟩] = false := by decide
example : shouldUpdate ⟨739016, 51⟩ [⟨739016, 50⟩] = true := by decide
example : shouldUpdate ⟨739016, 50⟩ [] = true := by decide

theorem foldl_maxStep_init_le (cs : List DT) :
    ∀ init : DT, init.toSec ≤ (cs.foldl maxStep init).toSec := by
  induction cs with
  | nil => intro init; simp
  | cons c cs ih =>
    intro init
    rw [List.foldl_cons]
    refine le_trans ?_ (ih (maxStep init c))
    unfold maxStep
    split <;> omega

theorem foldl_maxStep_mem_le (cs : List DT) :
    ∀ init : DT, ∀ c ∈ cs, c.toSec ≤ (cs.foldl maxStep init).toSec := by
  induction cs with
  | nil => intro init c hc; simp at hc
  | cons x xs ih =>
    intro init c hc
    rw [List.foldl_cons]
    rcases List.mem_cons.mp hc with h | h
    · subst h
      refine le_trans ?_ (foldl_maxStep_init_le xs (maxStep init c))
      unfold maxStep
      split <;> omega
    · exact ih (maxStep init x) c h

theorem foldl_maxStep_eq_or_mem (cs : List DT) :
    ∀ init : DT, cs.foldl maxStep init = init ∨ cs.foldl maxStep init ∈ cs := by
  induction cs with
  | nil => intro init; simp
  | cons x xs ih =>
    intro init
    rw [List.foldl_cons]
    rcases ih (maxStep init x) with h | h
    · rw [h]
      unfold maxStep
      split
      · exact Or.inr (List.mem_cons_self x xs)
      · exact Or.inl rfl
    · exact Or.inr (List.mem_cons_of_mem x h)

/-! ### The reconciliation run (kattis2canvas.py 396-456, main.py 325-389)

```python
kattis_user2canvas_id = {}
canvas_id2kattis_user = {}
for link in get_kattis_links(course):
    if link.kattis_user:
        kattis_user2canvas_id[link.kattis_user] = link.canvas_user
        canvas_id2kattis_user[link.canvas_user.id] = link.kattis_user
    else:
        warn(f"kattis link missing for ...")
...
submissions_by_user = {}
for canvas_submission in canvas_assignment.get_submissions(...):
    if canvas_submission.user_id in canvas_id2kattis_user:
        if canvas_submission.user_id in submissions_by_user:
            warn(f'duplicate submission for ...')
        submissions_by_user[canvas_id2kattis_user[canvas_submission.user_id]] = canvas_submission
        ... last_comment fold ...

for user, best in best_submissions.items():
    for kattis_submission in best.values():
        if user not in submissions_by_user:
            warn(...)
        elif user not in kattis_user2canvas_id:
            warn(...)
        elif kattis_submission.date > submissions_by_user[user].last_comment:
            ... update (write unless dryrun) ...
        else:
            info(... up to date ...)
```

`submissions_by_user` is keyed by kattis USERNAMES (strings), while the
guard `canvas_submission.user_id in submissions_by_user` tests a canvas
NUMERIC id; a Python `in` on a dict compares keys by equality and an
`int` never equals a `str`.  Dict keys are therefore modelled by the
sum type `PyKey`, so that the membership test is expressible exactly as
the source performs it. -/

/-- A Python dict key: an `int` or a `str` (equality never crosses the
two constructors, as in Python). -/
inductive PyKey where
  | int (n : ℤ)
  | str (s : String)
  deriving DecidableEq, Repr

/-- One entry of `get_kattis_links`: a canvas user (by id) and the
kattis username extracted from the profile link, if any. -/
structure KLink where
  canvasId : ℤ
  kattisUser : Option String
  deriving DecidableEq, Repr

/-- One canvas submission, with the timestamps of its comments. -/
structure CSub where
  userId : ℤ
  comments : List DT
  deriving DecidableEq, Repr

/-- The observable console events of a run (warnings, writes, infos). -/
inductive Event where
  | missingLink (canvasId : ℤ)
  | duplicateSub (userId : ℤ)
  | noCanvasSub (user : String)
  | unknownUser (user : String)
  | update (user problem : String) (score : ℚ)
  | upToDate (user : String)
  deriving DecidableEq, Repr

/-- One iteration of the first loop: plain dict assignment into
`kattis_user2canvas_id` and `canvas_id2kattis_user` (a repeated kattis
username silently overwrites), or a warning for a user without a link. -/
def buildMapsStep (st : List (String × ℤ) × List (ℤ × String) × List Event)
    (l : KLink) : List (String × ℤ) × List (ℤ × String) × List Event :=
  match l.kattisUser with
  | some k => (alSet st.1 k l.canvasId, alSet st.2.1 l.canvasId k, st.2.2)
  | none => (st.1, st.2.1, st.2.2 ++ [Event.missingLink l.canvasId])

/-- The first loop: build `kattis_user2canvas_id` and
`canvas_id2kattis_user`, warning on users without a link. -/
def buildMaps (links : List KLink) :
    List (String × ℤ) × List (ℤ × String) × List Event :=
  links.foldl buildMapsStep ([], [], [])

/-- The second loop: build `submissions_by_user` (keyed by kattis
username) with the collapsed `last_comment` attached.  The duplicate
guard tests `PyKey.int canvas_submission.user_id` against the dict —
whose keys are all `PyKey.str` — exactly as the source does.  Were the
guard ever true, formatting its warning would moreover raise `KeyError`
(`kattis_user2canvas_id[canvas_submission.user_id]` indexes a
str-keyed dict with an int); the branch is modelled as an event, and
`buildSubs_no_duplicate_events` below shows it is unreachable. -/
def buildSubsStep (c2k : List (ℤ × String))
    (st : List (PyKey × (CSub × DT)) × List Event) (cs : CSub) :
    List (PyKey × (CSub × DT)) × List Event :=
  match alGet? c2k cs.userId with
  | none => st
  | some k =>
    (alSet st.1 (PyKey.str k) (cs, lastComment cs.comments),
      if alMem st.1 (PyKey.int cs.userId) then st.2 ++ [Event.duplicateSub cs.userId]
      else st.2)

/-- The second loop, folding `buildSubsStep` over the assignment's
canvas submissions. -/
def buildSubs (c2k : List (ℤ × String)) (csubs : List CSub) :
    List (PyKey × (CSub × DT)) × List Event :=
  csubs.foldl (buildSubsStep c2k) ([], [])

/-- The final loop over the selected best submissions, producing the
run's plan events in order. -/
def planLoop (k2c : List (String × ℤ)) (subs : List (PyKey × (CSub × DT)))
    (bests : List (String × List Submission)) : List Event :=
  bests.foldl
    (fun evs ub =>
      ub.2.foldl
        (fun evs sub =>
          match alGet? subs (PyKey.str ub.1) with
          | none => evs ++ [Event.noCanvasSub ub.1]
          | some cslast =>
            if (alGet? k2c ub.1).isNone then evs ++ [Event.unknownUser ub.1]
            else if cslast.2.toSec < sub.date.toSec then
              evs ++ [Event.update ub.1 sub.problem sub.score]
            else evs ++ [Event.upToDate ub.1])
        evs)
    []

/-- One assignment's pass of `submissions2canvas`, scraping and the
canvas API abstracted to their data: profile links, the assignment's
canvas submissions, and the already-selected best submissions. -/
def submissions2canvasPlan (links : List KLink) (csubs : List CSub)
    (bests : List (String × List Submission)) : List Event :=
  let maps := buildMaps links
  let subs := buildSubs maps.2.1 csubs
  maps.2.2 ++ subs.2 ++ planLoop maps.1 subs.1 bests

example : submissions2canvasPlan
    [⟨7, some "alice"⟩]
    [⟨7, [⟨739016, 100⟩]⟩]
    [("alice", [⟨"alice", "A", 100, "/s/1", ⟨739016, 200⟩⟩])]
    = [Event.update "alice" "A" 100] := by decide

example : submissions2canvasPlan
    [⟨7, some "alice"⟩]
    [⟨7, [⟨739016, 100⟩]⟩]
    [("alice", [⟨"alice", "A", 100, "/s/1", ⟨739016, 100⟩⟩])]
    = [Event.upToDate "alice"] := by decide

/-! ## Claims -/

/-- Claim C1 (code bug): the claim states that `get_best_submissions`
is order-independent and keeps, for every (user, problem) key, the
maximum row by (score, submittedAt).  The source violates this: when a
row arrives for a problem not yet in the user's inner dict, the branch
`best_submissions[submission.user] = {submission.problem: submission}`
replaces the user's WHOLE inner dict instead of adding a key, so
earlier problems' bests are discarded and the result depends on row
order.  Here user "u" has a row for "A" and a row for "B": in one order
the "A" entry is lost entirely, in the other it is kept — contradicting
both order-independence and per-(user, problem) retention.  The
surrounding code (`defaultdict(dict)`, the per-problem `else` branch,
and the downstream iteration over `best.values()`) shows the intended
behaviour is the claimed one. -/
theorem c1_selector_order_dependent :
    lookupBest (get_best_submissions
      [⟨"u", "A", 100, "/s/1", ⟨739016, 100⟩⟩, ⟨"u", "B", 100, "/s/2", ⟨739016, 200⟩⟩])
      "u" "A" = none ∧
    lookupBest (get_best_submissions
      [⟨"u", "B", 100, "/s/2", ⟨739016, 200⟩⟩, ⟨"u", "A", 100, "/s/1", ⟨739016, 100⟩⟩])
      "u" "A" = some ⟨"u", "A", 100, "/s/1", ⟨739016, 100⟩⟩ := by decide

/-- Claim C2 (confirmed): the slot update rule of the best-submission
selector.  After processing a record, the slot for the record's own
(user, problem) key holds: the record itself if the slot was empty
(first record initializes the slot); otherwise the record exactly when
its score is strictly higher, or its score is equal and its date
strictly later, than the current best — and the unchanged current best
otherwise (lower score, or equal score with an equal-or-earlier date). -/
theorem c2_slot_update_rule (m : BestMap) (sub : Submission) :
    lookupBest (bestStep m sub) sub.user sub.problem =
      some (match lookupBest m sub.user sub.problem with
        | none => sub
        | some c =>
          if c.score < sub.score ∨ (c.score = sub.score ∧ c.date.toSec < sub.date.toSec)
          then sub else c) := by
  unfold bestStep lookupBest
  cases hu : alGet? m sub.user with
  | none =>
    simp only [hu, Option.getD_none, Option.bind]
    simp only [show alGet? ([] : List (String × Submission)) sub.problem = none from rfl]
    rw [alGet?_alSet_self]
    simp [alGet?]
  | some inner =>
    simp only [hu, Option.getD_some, Option.bind]
    cases hp : alGet? inner sub.problem with
    | none =>
      simp only [hp]
      rw [alGet?_alSet_self]
      simp [alGet?]
    | some c =>
      simp only [hp]
      by_cases hcond : c.score < sub.score ∨ (c.score = sub.score ∧ c.date.toSec < sub.date.toSec)
      · rw [if_pos hcond, if_pos hcond, alGet?_alSet_self]
        simp [alGet?_alSet_self]
      · rw [if_neg hcond, if_neg hcond, hu]
        simp [hp]

/-- The score as the spec words it for a fraction field `p/q`:
`100 * p / q` computed exactly over the rationals first, and only then
converted to the nearest float.  (Modelled from the spec's sentence;
the source converts `p / q` to a float BEFORE multiplying by 100, and
the two differ — see the C3 counterexample.) -/
def specScoreExactFirst (p q : ℕ) : ℚ := roundDoubleN (100 * p) q

/-- Claim C3 counterexample: for the row field `"1/3"` the code's score
`float(Fraction(1, 3)) * 100` is NOT `100 * 1 / 3` computed exactly
over rationals before conversion — neither under the reading
"the exact rational `100 / 3`" nor under the reading "the nearest float
of the exact rational `100 / 3`".  The code's value is
`2345624805922133 / 2 ^ 46` (that is, `4691249611844266 * 2 ^ (-47)`),
one unit in the last place below the correctly rounded
`4691249611844267 * 2 ^ (-47)`. -/
theorem c3_counterexample :
    scoreOfTestCases "1/3" ≠ some (specScoreExactFirst 1 3) ∧
    scoreOfTestCases "1/3" ≠ some (mkRat 100 3) ∧
    scoreOfTestCases "1/3" = some (mkRat 2345624805922133 (2 ^ 46)) ∧
    specScoreExactFirst 1 3 = mkRat 4691249611844267 (2 ^ 47) := by decide

/-- Claim C3 (corrected): the normalizer parses the test-case field so
that the exact dash-slash-dash string yields score `0.0`, and a
fraction string `"p/q"` yields `float(p / q) * 100`: the fraction is
first converted to the nearest double and the result is then multiplied
by `100` with one IEEE rounding (which can differ in the last bit from
`100 * p / q` computed exactly over rationals, e.g. at `"1/3"`); in
particular `"3/5"` yields `60.0` and `"5/5"` yields `100.0`. -/
theorem c3_score_parsing (s : String) (p q : ℕ)
    (hpq : parseFrac? s = some (p, q)) :
    scoreOfTestCases s = some (doubleMul100 (roundDoubleN p q)) ∧
    scoreOfTestCases "-/-" = some 0 ∧
    scoreOfTestCases "3/5" = some 60 ∧
    scoreOfTestCases "5/5" = some 100 := by
  refine ⟨?_, by decide, by decide, by decide⟩
  have hs : s ≠ "-/-" := by
    intro h
    rw [h] at hpq
    exact Option.noConfusion ((show parseFrac? "-/-" = none from by decide) ▸ hpq)
  unfold scoreOfTestCases
  rw [if_neg hs, hpq]
  rfl

/-- Witness for C3 at the concrete field `"3/5"`. -/
theorem c3_score_parsing_witness :
    parseFrac? "3/5" = some (3, 5) ∧
    (scoreOfTestCases "3/5" = some (doubleMul100 (roundDoubleN 3 5)) ∧
      scoreOfTestCases "-/-" = some 0 ∧
      scoreOfTestCases "3/5" = some 60 ∧
      scoreOfTestCases "5/5" = some 100) :=
  ⟨by decide, c3_score_parsing "3/5" 3 5 (by decide)⟩

/-- Claim C4 (confirmed): a short-format `"HH:MM:SS"` row timestamp is
resolved by substituting the time of day onto the reference now's date,
and exactly one day is subtracted if and only if that substitution lies
strictly after now; with now = 2024-05-10T10:00:00Z a row time
`"09:30:00"` resolves to 2024-05-10T09:30:00Z, and with
now = 2024-05-10T00:10:00Z a row time `"23:50:00"` resolves to
2024-05-09T23:50:00Z. -/
theorem c4_short_date_resolution :
    (∀ (dnow : DT) (h m s : ℕ),
      (resolveShortDate dnow h m s = ⟨dnow.day - 1, h * 3600 + m * 60 + s⟩ ↔
        dnow.toSec < (DT.mk dnow.day (h * 3600 + m * 60 + s)).toSec) ∧
      (resolveShortDate dnow h m s = ⟨dnow.day, h * 3600 + m * 60 + s⟩ ↔
        ¬dnow.toSec < (DT.mk dnow.day (h * 3600 + m * 60 + s)).toSec)) ∧
    resolveShortDate ⟨toordinal 2024 5 10, 36000⟩ 9 30 0 = ⟨toordinal 2024 5 10, 34200⟩ ∧
    resolveShortDate ⟨toordinal 2024 5 10, 600⟩ 23 50 0 = ⟨toordinal 2024 5 9, 85800⟩ := by
  refine ⟨fun dnow h m s => ?_, by decide, by decide⟩
  unfold resolveShortDate
  by_cases hc : dnow.toSec < (DT.mk dnow.day (h * 3600 + m * 60 + s)).toSec
  · rw [if_pos hc]
    refine ⟨⟨fun _ => hc, fun _ => rfl⟩, ⟨fun heq => ?_, fun hn => absurd hc hn⟩⟩
    injection heq with h1 h2
    omega
  · rw [if_neg hc]
    refine ⟨⟨fun heq => ?_, fun hcc => absurd hcc hc⟩, ⟨fun _ => hc, fun _ => rfl⟩⟩
    injection heq with h1 h2
    omega

/-- Claim C7 (confirmed): `find_kattis_link` returns the url of the
LAST link (in list order) whose title case-insensitively contains
"kattis" — last-wins, not first-wins — and `none` when no link matches
(the `.map` of the reversed-list first match); a user whose profile
yields no link is only warned about by the run, which continues with
that user absent from the identity maps. -/
theorem c7_last_matching_link_wins (links : List Link) (cid : ℤ) :
    (find_kattis_link links =
      (links.reverse.find? (fun l => titleMatchesKattis l.title)).map Link.url) ∧
    buildMaps [⟨cid, none⟩] = ([], [], [Event.missingLink cid]) := by
  refine ⟨?_, rfl⟩
  rw [find_kattis_link, find_kattis_link_foldl_characterization links none]
  cases links.reverse.find? (fun l => titleMatchesKattis l.title) <;> simp

/-- Claim C5 (confirmed): for a mapped best submission whose
destination canvas submission exists, the planner updates (writes, when
live) exactly when the destination pair has no prior annotation or the
best submission's timestamp is strictly greater than the collapsed
maximum of the prior annotation timestamps; equality, or an earlier
best, is skipped with no write (idempotence uses strict greater-than).
The hypotheses state that the best submission's timestamp and every
annotation timestamp lie at or after the year-1 sentinel
`datetime.fromordinal(1)` — true of every timestamp the run parses. -/
theorem c5_update_iff_strictly_newer (best : DT) (comments : List DT)
    (hb : dtSentinel.toSec < best.toSec)
    (hall : ∀ c ∈ comments, dtSentinel.toSec ≤ c.toSec) :
    shouldUpdate best comments = true ↔
      (comments = [] ∨
        ∃ c ∈ comments, (∀ c2 ∈ comments, c2.toSec ≤ c.toSec) ∧ c.toSec < best.toSec) := by
  unfold shouldUpdate
  rw [decide_eq_true_eq]
  constructor
  · intro hr
    by_cases hnil : comments = []
    · exact Or.inl hnil
    · refine Or.inr ?_
      rcases foldl_maxStep_eq_or_mem comments dtSentinel with hsent | hmem
      · obtain ⟨c0, hc0⟩ := List.exists_mem_of_ne_nil comments hnil
        have hsent2 : lastComment comments = dtSentinel := hsent
        refine ⟨c0, hc0, fun c2 hc2 => ?_, ?_⟩
        · have h2 := foldl_maxStep_mem_le comments dtSentinel c2 hc2
          rw [hsent] at h2
          exact le_trans h2 (hall c0 hc0)
        · exact lt_of_le_of_lt (foldl_maxStep_mem_le comments dtSentinel c0 hc0) hr
      · exact ⟨lastComment comments, hmem,
          fun c2 hc2 => foldl_maxStep_mem_le comments dtSentinel c2 hc2, hr⟩
  · intro h
    rcases h with hnil | ⟨c, hc, hmax, hlt⟩
    · subst hnil
      exact hb
    · rcases foldl_maxStep_eq_or_mem comments dtSentinel with hsent | hmem
      · have hsent2 : lastComment comments = dtSentinel := hsent
        rw [hsent2]
        exact hb
      · exact lt_of_le_of_lt (hmax (lastComment comments) hmem) hlt

/-- Witness for C5: an annotation exactly at the best submission's
timestamp, where both sides of the iff are false (equal timestamp means
skip). -/
theorem c5_update_iff_strictly_newer_witness :
    (dtSentinel.toSec < (DT.mk 739016 100).toSec) ∧
    (∀ c ∈ [DT.mk 739016 100], dtSentinel.toSec ≤ c.toSec) ∧
    (shouldUpdate ⟨739016, 100⟩ [⟨739016, 100⟩] = true ↔
      (([DT.mk 739016 100] : List DT) = [] ∨
        ∃ c ∈ [DT.mk 739016 100], (∀ c2 ∈ [DT.mk 739016 100], c2.toSec ≤ c.toSec) ∧
          c.toSec < (DT.mk 739016 100).toSec)) :=
  ⟨by decide, by decide,
    c5_update_iff_strictly_newer ⟨739016, 100⟩ [⟨739016, 100⟩] (by decide) (by decide)⟩

/-- Claim C6 (confirmed): a nonempty list of prior annotation
timestamps is collapsed to the single maximum timestamp before any
comparison (the collapsed value is attained by some entry and bounds
them all), and the planner's update/skip decision depends only on that
maximum: any other annotation list collapsing to the same maximum
yields the same decision, so duplicate or stale earlier entries never
affect it. -/
theorem c6_collapse_is_max (comments : List DT) (best : DT) (comments2 : List DT)
    (hne : comments ≠ [])
    (hall : ∀ c ∈ comments, dtSentinel.toSec ≤ c.toSec) :
    (∃ c ∈ comments, (lastComment comments).toSec = c.toSec) ∧
    (∀ c ∈ comments, c.toSec ≤ (lastComment comments).toSec) ∧
    ((lastComment comments2).toSec = (lastComment comments).toSec →
      shouldUpdate best comments2 = shouldUpdate best comments) := by
  refine ⟨?_, fun c hc => foldl_maxStep_mem_le comments dtSentinel c hc, fun heq => ?_⟩
  · rcases foldl_maxStep_eq_or_mem comments dtSentinel with hsent | hmem
    · obtain ⟨c0, hc0⟩ := List.exists_mem_of_ne_nil comments hne
      have hsent2 : lastComment comments = dtSentinel := hsent
      have h2 := foldl_maxStep_mem_le comments dtSentinel c0 hc0
      rw [hsent] at h2
      refine ⟨c0, hc0, ?_⟩
      rw [hsent2]
      exact le_antisymm (hall c0 hc0) h2
    · exact ⟨lastComment comments, hmem, rfl⟩
  · unfold shouldUpdate
    rw [heq]

/-- Witness for C6: a duplicate-laden list `[stale, max, max]`
collapsing to the same maximum as `[max]`, hence the same decision. -/
theorem c6_collapse_is_max_witness :
    (([DT.mk 739016 50, DT.mk 739016 100, DT.mk 739016 100] : List DT) ≠ []) ∧
    (∀ c ∈ [DT.mk 739016 50, DT.mk 739016 100, DT.mk 739016 100],
      dtSentinel.toSec ≤ c.toSec) ∧
    ((∃ c ∈ [DT.mk 739016 50, DT.mk 739016 100, DT.mk 739016 100],
        (lastComment [DT.mk 739016 50, DT.mk 739016 100, DT.mk 739016 100]).toSec = c.toSec) ∧
      (∀ c ∈ [DT.mk 739016 50, DT.mk 739016 100, DT.mk 739016 100],
        c.toSec ≤ (lastComment [DT.mk 739016 50, DT.mk 739016 100, DT.mk 739016 100]).toSec) ∧
      ((lastComment [DT.mk 739016 100]).toSec =
          (lastComment [DT.mk 739016 50, DT.mk 739016 100, DT.mk 739016 100]).toSec →
        shouldUpdate ⟨739016, 100⟩ [DT.mk 739016 100] =
          shouldUpdate ⟨739016, 100⟩ [DT.mk 739016 50, DT.mk 739016 100, DT.mk 739016 100])) :=
  ⟨by decide, by decide,
    c6_collapse_is_max [DT.mk 739016 50, DT.mk 739016 100, DT.mk 739016 100]
      ⟨739016, 100⟩ [DT.mk 739016 100] (by decide) (by decide)⟩

/-! ### C8 helper lemmas -/

theorem alGet?_int_none_of_str_keys {β : Type} (subs : List (PyKey × β))
    (h : ∀ kv ∈ subs, ∃ t, kv.1 = PyKey.str t) (n : ℤ) :
    alGet? subs (PyKey.int n) = none := by
  induction subs with
  | nil => rfl
  | cons kv rest ih =>
    obtain ⟨t, ht⟩ := h kv (List.mem_cons_self kv rest)
    obtain ⟨k0, v0⟩ := kv
    simp only at ht
    subst ht
    simp only [alGet?, reduceCtorEq, if_neg]
    exact ih fun kv hkv => h kv (List.mem_cons_of_mem _ hkv)

theorem str_keys_alSet {β : Type} (subs : List (PyKey × β)) (t : String) (v : β)
    (h : ∀ kv ∈ subs, ∃ u, kv.1 = PyKey.str u) :
    ∀ kv ∈ alSet subs (PyKey.str t) v, ∃ u, kv.1 = PyKey.str u := by
  induction subs with
  | nil =>
    intro kv hkv
    simp only [alSet, List.mem_singleton] at hkv
    exact ⟨t, by rw [hkv]⟩
  | cons p rest ih =>
    obtain ⟨k0, v0⟩ := p
    intro kv hkv
    by_cases hk : k0 = PyKey.str t
    · rw [alSet, if_pos hk] at hkv
      rcases List.mem_cons.mp hkv with h1 | h2
      · exact ⟨t, by rw [h1]⟩
      · exact h kv (List.mem_cons_of_mem _ h2)
    · rw [alSet, if_neg hk] at hkv
      rcases List.mem_cons.mp hkv with h1 | h2
      · exact h kv (by rw [h1]; exact List.mem_cons_self _ _)
      · exact ih (fun kv hkv => h kv (List.mem_cons_of_mem _ hkv)) kv h2

theorem buildSubs_no_duplicate_events (c2k : List (ℤ × String)) (csubs : List CSub) :
    ∀ st : List (PyKey × (CSub × DT)) × List Event,
      (∀ kv ∈ st.1, ∃ t, kv.1 = PyKey.str t) →
      (csubs.foldl (buildSubsStep c2k) st).2 = st.2 ∧
        ∀ kv ∈ (csubs.foldl (buildSubsStep c2k) st).1, ∃ t, kv.1 = PyKey.str t := by
  induction csubs with
  | nil => exact fun st hst => ⟨rfl, hst⟩
  | cons cs rest ih =>
    intro st hst
    rw [List.foldl_cons]
    cases hk : alGet? c2k cs.userId with
    | none =>
      have hstep : buildSubsStep c2k st cs = st := by
        unfold buildSubsStep
        rw [hk]
      rw [hstep]
      exact ih st hst
    | some k =>
      have hmem : alMem st.1 (PyKey.int cs.userId) = false := by
        unfold alMem
        rw [alGet?_int_none_of_str_keys st.1 hst cs.userId]
        rfl
      have hstep : buildSubsStep c2k st cs =
          (alSet st.1 (PyKey.str k) (cs, lastComment cs.comments), st.2) := by
        unfold buildSubsStep
        rw [hk, hmem]
        simp
      rw [hstep]
      exact ih _ (str_keys_alSet st.1 k (cs, lastComment cs.comments) hst)

theorem buildMaps_k2c_characterization (links : List KLink) (k : String) :
    ∀ st : List (String × ℤ) × List (ℤ × String) × List Event,
      alGet? (links.foldl buildMapsStep st).1 k =
        match links.reverse.find? (fun l => l.kattisUser = some k) with
        | some l => some l.canvasId
        | none => alGet? st.1 k := by
  induction links with
  | nil => intro st; simp
  | cons l ls ih =>
    intro st
    rw [List.foldl_cons, ih, List.reverse_cons, List.find?_append]
    cases hf : ls.reverse.find? (fun l => l.kattisUser = some k) with
    | some l2 => simp [hf, Option.orElse]
    | none =>
      cases hl : l.kattisUser with
      | none =>
        have hstep : (buildMapsStep st l).1 = st.1 := by
          unfold buildMapsStep
          rw [hl]
        simp [hf, Option.orElse, List.find?, hl, hstep]
      | some k0 =>
        have hstep : (buildMapsStep st l).1 = alSet st.1 k0 l.canvasId := by
          unfold buildMapsStep
          rw [hl]
        by_cases hkk : k0 = k
        · subst hkk
          simp [hf, Option.orElse, List.find?, hl, hstep, alGet?_alSet_self]
        · simp [hf, Option.orElse, List.find?, hl, hkk, hstep,
            alGet?_alSet_ne st.1 k0 k l.canvasId hkk]

/-- Claim C8 counterexample: canvas users 1 and 2 both resolve to
kattis id "kat"; the claim requires a warning per affected user and the
exclusion of the conflicting sourceUserId from the plan.  The run's
event list instead contains NO warning at all and DOES contain an
update (a write when live) for "kat": the later roster user silently
overwrote the earlier one in the identity maps, and the plan applies
"kat"'s best submission to the surviving canvas submission. -/
theorem c8_counterexample :
    submissions2canvasPlan
      [⟨1, some "kat"⟩, ⟨2, some "kat"⟩]
      [⟨1, []⟩, ⟨2, []⟩]
      [("kat", [⟨"kat", "A", 100, "/s/1", ⟨739016, 0⟩⟩])]
      = [Event.update "kat" "A" 100] := by decide

/-- Claim C8 (corrected): when two canvas users resolve to the same
kattis id, NO warning is emitted and the users are NOT excluded from
the plan.  The identity maps are overwritten silently (the kattis-to-
canvas map resolves each kattis id to the LAST roster link that claimed
it), and the only duplicate guard in the run —
`canvas_submission.user_id in submissions_by_user` — tests an int
canvas id against a dict keyed by kattis username strings, so it never
fires and the second loop emits no events on any input. -/
theorem c8_conflicts_silently_last_write_wins (links : List KLink) (csubs : List CSub)
    (k : String) :
    (buildSubs (buildMaps links).2.1 csubs).2 = [] ∧
    alGet? (buildMaps links).1 k =
      (links.reverse.find? (fun l => l.kattisUser = some k)).map KLink.canvasId := by
  constructor
  · exact (buildSubs_no_duplicate_events (buildMaps links).2.1 csubs ([], [])
      (by intro kv hkv; exact absurd hkv (List.not_mem_nil kv))).1
  · rw [show (buildMaps links).1 = (links.foldl buildMapsStep ([], [], [])).1 from rfl,
      buildMaps_k2c_characterization links k ([], [], [])]
    cases links.reverse.find? (fun l => l.kattisUser = some k) <;> simp [alGet?]

/-- Claim C9 counterexample: the claim states that for every input with
at least one `/` the result is the substring strictly after the last
`/`, including when the only `/` is the first character.  For `"/a"`
the source's truthiness test `if last_slash:` sees index 0, skips the
slicing, and returns the input unchanged instead of `"a"`. -/
theorem c9_counterexample :
    extract_last "/a" ≠ some "a" ∧ extract_last "/a" = some "/a" := by decide

/-- Claim C9 (corrected): for every input containing at least one `/`
(written as `pre ++ "/" ++ post` with slash-free `post`, so the last
slash sits at index `pre.length`), `extract_last` returns the substring
strictly after the last slash whenever that slash is at a positive
index, but returns the string UNCHANGED when the only slash is the
first character (index 0 is falsy in the guard `if last_slash:`). -/
theorem c9_last_path_segment (pre post : List Char) (hpost : '/' ∉ post) :
    extract_last (String.mk (pre ++ '/' :: post)) =
      if pre = [] then some (String.mk ('/' :: post)) else some (String.mk post) := by
  unfold extract_last
  rw [show (String.mk (pre ++ '/' :: post)).data = pre ++ '/' :: post from rfl,
    lastIdxFrom_append_last pre post hpost 0]
  simp only [Nat.zero_add]
  by_cases hp : pre = []
  · subst hp
    simp
  · have hlen : ¬pre.length = 0 := fun h => hp (List.eq_nil_of_length_eq_zero h)
    rw [if_neg hp]
    simp only [if_neg hlen]
    have hsplit : pre ++ '/' :: post = (pre ++ ['/']) ++ post := by simp
    rw [hsplit, show pre.length + 1 = (pre ++ ['/']).length from by simp,
      List.drop_left]

/-- Witness for C9 at the concrete path `"a/b"`. -/
theorem c9_last_path_segment_witness :
    ('/' ∉ ['b']) ∧
    extract_last (String.mk (['a'] ++ '/' :: ['b'])) =
      (if (['a'] : List Char) = [] then some (String.mk ('/' :: ['b']))
       else some (String.mk ['b'])) :=
  ⟨by decide, c9_last_path_segment ['a'] ['b'] (by decide)⟩

/-- Claim C10 (confirmed): `extract_last` is partial — it returns a
value exactly when the input contains a `/`, and for any input with no
`/` at all the `str.rindex` call raises an unhandled `ValueError`
(modelled by `none`), aborting that lookup instead of returning the
string or an error value. -/
theorem c10_extract_last_raises_without_slash (s : String) :
    extract_last s = none ↔ '/' ∉ s.data := by
  unfold extract_last
  cases h : lastIdxFrom '/' s.data 0 with
  | none => simp [(lastIdxFrom_eq_none_iff '/' s.data 0).mp h]
  | some i =>
    have hmem : '/' ∈ s.data := by
      by_contra hn
      rw [(lastIdxFrom_eq_none_iff '/' s.data 0).mpr hn] at h
      exact Option.noConfusion h
    simp only [hmem, not_true, iff_false]
    split <;> simp
